import Mathlib

/-!
Verification of the tile-geometry generator of `imagepartitioner.py`
(`ImagePartitioner.get_boxes` and its two validation helpers).

The embedding works over `Nat`: all quantities in the program (image size,
tile size, overlap, box coordinates, row/column indices) are non-negative
integers, and every arithmetic operation performed by the program on them
(`+`, `-` on validated operands, comparisons) agrees with `Nat` arithmetic.

The two `while` loops of `get_boxes` are rendered as structural recursion on
an explicit fuel argument.  The source loops terminate because validation
guarantees strictly positive translation offsets, which makes `imageWidth`
(resp. `imageHeight`) an upper bound on the number of iterations of the
inner (resp. outer) loop; `get_boxes` passes exactly these bounds as fuel,
and the lemma `get_boxes_ok` shows the fuel is never exhausted before the
loop condition turns false.

Failure is modelled with `Except`: Python exceptions (`ValueError` from the
validators, `NotImplementedError` for overhang, `AssertionError` from the
four in-loop `assert` statements) become `Except.error` values.  The `%d`
numeric interpolations of the source's error messages are elided; the fixed
message text is kept.
-/

/-- A partition box, Python's 4-tuple `(left, upper, right, lower)`. -/
structure Box where
  left : Nat
  upper : Nat
  right : Nat
  lower : Nat
deriving Repr, DecidableEq

/-- A tile record as yielded by `get_boxes`: `(box, row, col)`. -/
abbrev Tile := Box × Nat × Nat

/-- The exceptions the generator can raise: `ValueError` (invalid
configuration), `NotImplementedError` (overhang requested), and
`AssertionError` (one of the four in-loop sanity checks failed). -/
inductive PartErr where
  | valueError (msg : String)
  | notImplemented
  | assertionFailed
deriving Repr, DecidableEq

/-- `ImagePartitioner.validate_box_size_against_image_size` (lines 76-87).
Sizes are `(width, height)` pairs.  Note the second comparison of the
source: `self.partSize[1] > imgSize[0]`, i.e. the box HEIGHT is compared
against the image WIDTH (`imgSize.1`), exactly as in the source. -/
def validate_box_size_against_image_size (partSize imgSize : Nat × Nat) :
    Except PartErr Unit :=
  if partSize.1 > imgSize.1 then
    .error (.valueError "Image width must exceed box width")
  else if partSize.2 > imgSize.1 then
    .error (.valueError "Image height must exceed box height")
  else
    .ok ()

/-- `ImagePartitioner.validate_overlap_size_against_box_size` (lines 89-100). -/
def validate_overlap_size_against_box_size (overlapSize boxSize : Nat × Nat) :
    Except PartErr Unit :=
  if overlapSize.1 ≥ boxSize.1 then
    .error (.valueError "Overlap width must exceed box width")
  else if overlapSize.2 ≥ boxSize.2 then
    .error (.valueError "Overlap height must not exceed overlap height")
  else
    .ok ()

/-- The inner `while left < imageWidth` loop of `get_boxes` (lines 128-146):
trim `right`/`lower` destructively, run the four `assert` statements, yield
the tile, then advance `left`, `right` and `col`.  The mutated `lower` is
returned together with the yielded tiles because the outer loop keeps using
it after the row ends.  `fuel` bounds the number of iterations; when the
caller's fuel bound is respected, running out of fuel coincides with the
loop condition turning false (see `get_boxes_inner_spec`). -/
def get_boxes_inner (imageWidth imageHeight widthOffset row upper : Nat) :
    Nat → Nat → Nat → Nat → Nat → Except PartErr (List Tile × Nat)
  | 0, _, _, lower, _ => .ok ([], lower)
  | fuel + 1, left, right, lower, col =>
    if left < imageWidth then
      -- Trim the box if it exceeds the image size.
      let right' := if right > imageWidth then imageWidth else right
      let lower' := if lower > imageHeight then imageHeight else lower
      -- Do a few sanity checks.
      if 0 ≤ left ∧ 0 ≤ upper ∧ left < right' ∧ upper < lower' then
        match get_boxes_inner imageWidth imageHeight widthOffset row upper
            fuel (left + widthOffset) (right' + widthOffset) lower' (col + 1) with
        | .error e => .error e
        | .ok (rest, finalLower) =>
          .ok ((⟨left, upper, right', lower'⟩, row, col) :: rest, finalLower)
      else
        .error .assertionFailed
    else
      .ok ([], lower)

/-- The outer `while upper < imageHeight` loop of `get_boxes` (lines
127-149): run a whole row starting from `left = 0`, `right = boxWidth`,
`col = 0`, then advance `row`, `upper` and the (possibly trimmed) `lower`.
The inner loop receives `imageWidth` as its fuel. -/
def get_boxes_outer (imageWidth imageHeight widthOffset heightOffset boxWidth : Nat) :
    Nat → Nat → Nat → Nat → Except PartErr (List Tile)
  | 0, _, _, _ => .ok []
  | fuel + 1, upper, lower, row =>
    if upper < imageHeight then
      match get_boxes_inner imageWidth imageHeight widthOffset row upper
          imageWidth 0 boxWidth lower 0 with
      | .error e => .error e
      | .ok (tiles, lower') =>
        match get_boxes_outer imageWidth imageHeight widthOffset heightOffset boxWidth
            fuel (upper + heightOffset) (lower' + heightOffset) (row + 1) with
        | .error e => .error e
        | .ok rest => .ok (tiles ++ rest)
    else
      .ok []

/-- `ImagePartitioner.get_boxes` (lines 102-149).  `imgSize`, `boxSize` and
`overlap` are `(width, height)` pairs; `overhang` truthy raises
`NotImplementedError` before anything else.  In every call the source makes,
`self.partSize = boxSize` and `self.overlapSize = overlap`
(see `get_partitions`, line 166), so the validators receive the same sizes
the loop uses.  The list of yielded tiles stands for the exhausted
generator; an error before/during generation is an `Except.error`. -/
def get_boxes (imgSize boxSize overlap : Nat × Nat) (overhang : Bool) :
    Except PartErr (List Tile) :=
  if overhang then .error .notImplemented
  else
    match validate_box_size_against_image_size boxSize imgSize with
    | .error e => .error e
    | .ok _ =>
      match validate_overlap_size_against_box_size overlap boxSize with
      | .error e => .error e
      | .ok _ =>
        -- Calculate the box translation offsets.
        let widthOffset := boxSize.1 - overlap.1
        let heightOffset := boxSize.2 - overlap.2
        get_boxes_outer imgSize.1 imgSize.2 widthOffset heightOffset boxSize.1
          imgSize.2 0 boxSize.2 0

/-- Ceiling division on `Nat`: `ceilDiv a b` is `⌈a / b⌉` for `b > 0`. -/
def ceilDiv (a b : Nat) : Nat := (a + b - 1) / b

/-- Row-major enumeration of a `rows × cols` grid of values:
`[f 0 0, f 0 1, …, f 0 (cols-1), f 1 0, …, f (rows-1) (cols-1)]`. -/
def gridList (rows cols : Nat) (f : Nat → Nat → α) : List α :=
  (List.range rows).flatMap (fun r => (List.range cols).map (f r))

/-- The closed form of the tile the generator emits at grid position
`(r, c)` for image `(W, H)`, box `(w, h)`, overlap `(ow, oh)`. -/
def tileAt (W H w h ow oh r c : Nat) : Tile :=
  (⟨c * (w - ow), r * (h - oh),
    min (c * (w - ow) + w) W, min (r * (h - oh) + h) H⟩, r, c)

/-- Modelled from the spec (§4.1, steps 2-3 of the algorithm, and the
"Precisely: maintain two logical states" refinement note): the inner loop
of the two-state algorithm.  `rightNom` is the *nominal* right edge, which
grows monotonically by `widthOffset`; only the emitted copy is trimmed to
the image width, and likewise the emitted lower edge is the trimmed copy of
the nominal `lowerNom`. -/
def spec_inner (imageWidth imageHeight widthOffset upper lowerNom row : Nat) :
    Nat → Nat → Nat → Nat → List Tile
  | 0, _, _, _ => []
  | fuel + 1, left, rightNom, col =>
    if left < imageWidth then
      (⟨left, upper,
        if rightNom > imageWidth then imageWidth else rightNom,
        if lowerNom > imageHeight then imageHeight else lowerNom⟩, row, col)
        :: spec_inner imageWidth imageHeight widthOffset upper lowerNom row
            fuel (left + widthOffset) (rightNom + widthOffset) (col + 1)
    else []

/-- Modelled from the spec (§4.1): the outer loop of the two-state
algorithm.  The nominal `lowerNom` advances by `heightOffset` each row,
never trimmed; rows restart the inner loop at `left = 0`,
`rightNom = boxWidth`, `col = 0`. -/
def spec_outer (imageWidth imageHeight widthOffset heightOffset boxWidth : Nat) :
    Nat → Nat → Nat → Nat → List Tile
  | 0, _, _, _ => []
  | fuel + 1, upper, lowerNom, row =>
    if upper < imageHeight then
      spec_inner imageWidth imageHeight widthOffset upper lowerNom row
          imageWidth 0 boxWidth 0
        ++ spec_outer imageWidth imageHeight widthOffset heightOffset boxWidth
            fuel (upper + heightOffset) (lowerNom + heightOffset) (row + 1)
    else []

/-- Modelled from the spec (§4.1 `generate_boxes` contract, generation part):
the spec's two-state algorithm producing the sequence of tile records for a
validated configuration. -/
def generate_boxes_spec (imgSize boxSize overlap : Nat × Nat) : List Tile :=
  spec_outer imgSize.1 imgSize.2 (boxSize.1 - overlap.1) (boxSize.2 - overlap.2)
    boxSize.1 imgSize.2 0 boxSize.2 0

/-- Destructive trimming `if x > L then L else x` is `min x L`. -/
theorem trim_eq_min (x L : Nat) : (if x > L then L else x) = min x L := by
  split <;> omega

/-- `ceilDiv 0 b = 0` for positive `b`. -/
theorem ceilDiv_zero_left (b : Nat) (hb : 0 < b) : ceilDiv 0 b = 0 := by
  unfold ceilDiv
  exact Nat.div_eq_of_lt (by omega)

/-- Peeling one step off a ceiling division of a positive numerator. -/
theorem ceilDiv_step (d s : Nat) (hs : 0 < s) (hd : 0 < d) :
    ceilDiv d s = ceilDiv (d - s) s + 1 := by
  unfold ceilDiv
  have key : ∀ m, 0 < m → (m + s - 1) / s = (m - 1) / s + 1 := by
    intro m hm
    have h1 : m + s - 1 = (m - 1) + s := by omega
    rw [h1, Nat.add_div_right _ hs]
  rcases le_or_lt d s with hle | hlt
  · have e1 : (d - 1) / s = 0 := Nat.div_eq_of_lt (by omega)
    have e2 : (d - s + s - 1) / s = 0 := Nat.div_eq_of_lt (by omega)
    rw [key d hd]
    omega
  · have hpos : 0 < d - s := by omega
    rw [key d hd, key (d - s) hpos]
    have h3 : d - 1 = (d - s - 1) + s := by omega
    rw [h3, Nat.add_div_right _ hs]

/-- `k` is below `ceilDiv n s` exactly when the `k`-th step has not yet
reached `n`. -/
theorem lt_ceilDiv_iff (k n s : Nat) (hs : 0 < s) :
    k < ceilDiv n s ↔ k * s < n := by
  unfold ceilDiv
  rcases Nat.eq_zero_or_pos n with hn | hn
  · subst hn
    have h1 : (0 + s - 1) / s = 0 := Nat.div_eq_of_lt (by omega)
    omega
  · have h1 : n + s - 1 = (n - 1) + s := by omega
    rw [h1, Nat.add_div_right _ hs]
    have h2 : k ≤ (n - 1) / s ↔ k * s ≤ n - 1 := Nat.le_div_iff_mul_le hs
    omega

/-- `gridList` over zero rows is empty. -/
theorem gridList_zero (cols : Nat) (f : Nat → Nat → α) :
    gridList 0 cols f = [] := rfl

/-- Peeling the first row off a `gridList`. -/
theorem gridList_succ (rows cols : Nat) (f : Nat → Nat → α) :
    gridList (rows + 1) cols f =
      (List.range cols).map (f 0) ++ gridList rows cols (fun r => f (r + 1)) := by
  unfold gridList
  rw [List.range_succ_eq_map, List.flatMap_cons, List.flatMap_map]

/-- A `gridList` has `rows * cols` entries. -/
theorem gridList_length (rows cols : Nat) (f : Nat → Nat → α) :
    (gridList rows cols f).length = rows * cols := by
  induction rows generalizing f with
  | zero => simp [gridList]
  | succ n ih =>
    rw [gridList_succ, List.length_append, ih]
    simp [Nat.succ_mul, Nat.add_comm]

/-- Mapping over a `gridList` maps each grid entry. -/
theorem gridList_map (rows cols : Nat) (f : Nat → Nat → α) (g : α → β) :
    (gridList rows cols f).map g = gridList rows cols (fun r c => g (f r c)) := by
  unfold gridList
  rw [List.map_flatMap]
  simp only [List.map_map]
  rfl

/-- Membership in a `gridList` means being one of the grid entries. -/
theorem mem_gridList (rows cols : Nat) (f : Nat → Nat → α) (a : α) :
    a ∈ gridList rows cols f ↔ ∃ r c, r < rows ∧ c < cols ∧ a = f r c := by
  unfold gridList
  simp only [List.mem_flatMap, List.mem_map, List.mem_range]
  constructor
  · rintro ⟨r, hr, c, hc, rfl⟩
    exact ⟨r, c, hr, hc, rfl⟩
  · rintro ⟨r, c, hr, hc, rfl⟩
    exact ⟨r, hr, c, hc, rfl⟩

/-- Two `gridList`s with pointwise-equal entry functions are equal. -/
theorem gridList_congr (rows cols : Nat) (f g : Nat → Nat → α)
    (h : ∀ r c, r < rows → c < cols → f r c = g r c) :
    gridList rows cols f = gridList rows cols g := by
  induction rows generalizing f g with
  | zero => rfl
  | succ n ih =>
    rw [gridList_succ, gridList_succ]
    congr 1
    · exact List.map_congr_left fun c hc =>
        h 0 c (Nat.succ_pos n) (List.mem_range.mp hc)
    · exact ih _ _ fun r c hr hc => h (r + 1) c (by omega) hc

/-- One-step unfolding of `get_boxes_inner` at positive fuel. -/
theorem get_boxes_inner_succ (W H wOff row upper fuel left right lower col : Nat) :
    get_boxes_inner W H wOff row upper (fuel + 1) left right lower col =
      if left < W then
        if 0 ≤ left ∧ 0 ≤ upper ∧ left < (if right > W then W else right) ∧
            upper < (if lower > H then H else lower) then
          match get_boxes_inner W H wOff row upper fuel (left + wOff)
              ((if right > W then W else right) + wOff)
              (if lower > H then H else lower) (col + 1) with
          | .error e => .error e
          | .ok (rest, finalLower) =>
            .ok ((⟨left, upper, (if right > W then W else right),
              (if lower > H then H else lower)⟩, row, col) :: rest, finalLower)
        else .error .assertionFailed
      else .ok ([], lower) := rfl

/-- Closed form of the inner loop.  The hypothesis
`min right W = min (left + w) W` is the loop invariant relating the
destructively trimmed `right` to the nominal right edge `left + w`: it
holds on row entry (`right = left + w` exactly) and survives trimming
because once `right` has been trimmed, `left + w` exceeds the image width
for all remaining columns as well. -/
theorem get_boxes_inner_spec (W H wOff w row upper : Nat)
    (hwOff : 0 < wOff) (hw : 0 < w) :
    ∀ fuel left right lower col,
      W ≤ left + fuel * wOff →
      min right W = min (left + w) W →
      upper < min lower H →
      get_boxes_inner W H wOff row upper fuel left right lower col =
        .ok ((List.range (ceilDiv (W - left) wOff)).map
              (fun k => (⟨left + k * wOff, upper,
                min (left + k * wOff + w) W, min lower H⟩, row, col + k)),
             if left < W then min lower H else lower) := by
  intro fuel
  induction fuel with
  | zero =>
    intro left right lower col hfuel hinv hlow
    have hle : W ≤ left := by simpa using hfuel
    have h0 : W - left = 0 := by omega
    rw [h0, ceilDiv_zero_left _ hwOff]
    simp [get_boxes_inner, Nat.not_lt.mpr hle]
  | succ fuel ih =>
    intro left right lower col hfuel hinv hlow
    by_cases hlt : left < W
    · have hcond : 0 ≤ left ∧ 0 ≤ upper ∧ left < min right W ∧ upper < min lower H :=
        ⟨Nat.zero_le _, Nat.zero_le _, by omega, hlow⟩
      have hfuel' : W ≤ (left + wOff) + fuel * wOff := by
        have hsm : (fuel + 1) * wOff = fuel * wOff + wOff := by ring
        omega
      have hinv' : min (min right W + wOff) W = min ((left + wOff) + w) W := by omega
      have hlow' : upper < min (min lower H) H := by omega
      rw [get_boxes_inner_succ, trim_eq_min, trim_eq_min, if_pos hlt, if_pos hcond,
        ih (left + wOff) (min right W + wOff) (min lower H) (col + 1) hfuel' hinv' hlow']
      have hstep : ceilDiv (W - left) wOff = ceilDiv (W - (left + wOff)) wOff + 1 := by
        have e : W - left - wOff = W - (left + wOff) := by omega
        have := ceilDiv_step (W - left) wOff hwOff (by omega)
        rw [e] at this
        exact this
      rw [hstep, List.range_succ_eq_map, List.map_cons, List.map_map]
      have hfin : (if left + wOff < W then min (min lower H) H else min lower H) =
          min lower H := by split <;> omega
      rw [hfin, if_pos hlt]
      have hhead : ((⟨left, upper, min right W, min lower H⟩ : Box), row, col) =
          ((fun k => ((⟨left + k * wOff, upper,
            min (left + k * wOff + w) W, min lower H⟩ : Box), row, col + k)) 0) := by
        simp only [Prod.mk.injEq, Box.mk.injEq, true_and, and_true]
        omega
      have htail : List.map (fun k => ((⟨left + wOff + k * wOff, upper,
            min (left + wOff + k * wOff + w) W, min (min lower H) H⟩ : Box),
            row, col + 1 + k)) (List.range (ceilDiv (W - (left + wOff)) wOff)) =
          List.map ((fun k => ((⟨left + k * wOff, upper,
            min (left + k * wOff + w) W, min lower H⟩ : Box), row, col + k)) ∘ Nat.succ)
            (List.range (ceilDiv (W - (left + wOff)) wOff)) := by
        refine List.map_congr_left fun k _ => ?_
        have hsm : (k + 1) * wOff = k * wOff + wOff := by ring
        simp only [Function.comp_apply, Prod.mk.injEq, Box.mk.injEq,
          Nat.succ_eq_add_one, true_and, and_true]
        omega
      rw [hhead, htail]
    · have h0 : W - left = 0 := by omega
      rw [h0, ceilDiv_zero_left _ hwOff]
      simp [get_boxes_inner_succ, hlt]

/-- One-step unfolding of `get_boxes_outer` at positive fuel. -/
theorem get_boxes_outer_succ (W H wOff hOff bw fuel upper lower row : Nat) :
    get_boxes_outer W H wOff hOff bw (fuel + 1) upper lower row =
      if upper < H then
        match get_boxes_inner W H wOff row upper W 0 bw lower 0 with
        | .error e => .error e
        | .ok (tiles, lower') =>
          match get_boxes_outer W H wOff hOff bw fuel
              (upper + hOff) (lower' + hOff) (row + 1) with
          | .error e => .error e
          | .ok rest => .ok (tiles ++ rest)
      else .ok [] := rfl

/-- Closed form of the outer loop.  The hypothesis
`min lower H = min (upper + h) H` is the loop invariant relating the
destructively trimmed `lower` to the nominal lower edge `upper + h`: it
holds initially (`lower = h`, `upper = 0`) and survives both trimming and
the row advance. -/
theorem get_boxes_outer_spec (W H wOff hOff w h : Nat)
    (hwOff : 0 < wOff) (hhOff : 0 < hOff) (hw : 0 < w) (hh : 0 < h) (hW : 0 < W) :
    ∀ fuel upper lower row,
      H ≤ upper + fuel * hOff →
      min lower H = min (upper + h) H →
      get_boxes_outer W H wOff hOff w fuel upper lower row =
        .ok (gridList (ceilDiv (H - upper) hOff) (ceilDiv W wOff)
          (fun r c => (⟨c * wOff, upper + r * hOff,
            min (c * wOff + w) W, min (upper + r * hOff + h) H⟩, row + r, c))) := by
  intro fuel
  induction fuel with
  | zero =>
    intro upper lower row hfuel hinv
    have hle : H ≤ upper := by simpa using hfuel
    have h0 : H - upper = 0 := by omega
    rw [h0, ceilDiv_zero_left _ hhOff, gridList_zero]
    simp [get_boxes_outer, Nat.not_lt.mpr hle]
  | succ fuel ih =>
    intro upper lower row hfuel hinv
    by_cases hlt : upper < H
    · have hlow : upper < min lower H := by omega
      have hinner := get_boxes_inner_spec W H wOff w row upper hwOff hw W 0 w lower 0
        (by have := Nat.le_mul_of_pos_right W hwOff; omega) (by simp) hlow
      rw [get_boxes_outer_succ, if_pos hlt, hinner]
      have hfin : (if 0 < W then min lower H else lower) = min lower H := if_pos hW
      rw [hfin]
      dsimp only
      have hfuel' : H ≤ (upper + hOff) + fuel * hOff := by
        have hsm : (fuel + 1) * hOff = fuel * hOff + hOff := by ring
        omega
      have hinv' : min (min lower H + hOff) H = min ((upper + hOff) + h) H := by omega
      rw [ih (upper + hOff) (min lower H + hOff) (row + 1) hfuel' hinv']
      dsimp only
      have hstep : ceilDiv (H - upper) hOff = ceilDiv (H - (upper + hOff)) hOff + 1 := by
        have e : H - upper - hOff = H - (upper + hOff) := by omega
        have := ceilDiv_step (H - upper) hOff hhOff (by omega)
        rw [e] at this
        exact this
      rw [hstep, gridList_succ]
      have hrow : List.map (fun k => ((⟨0 + k * wOff, upper,
            min (0 + k * wOff + w) W, min lower H⟩ : Box), row, 0 + k))
            (List.range (ceilDiv (W - 0) wOff)) =
          List.map ((fun r c => ((⟨c * wOff, upper + r * hOff,
            min (c * wOff + w) W, min (upper + r * hOff + h) H⟩ : Box), row + r, c)) 0)
            (List.range (ceilDiv W wOff)) := by
        rw [Nat.sub_zero]
        refine List.map_congr_left fun k _ => ?_
        simp only [Prod.mk.injEq, Box.mk.injEq, true_and, and_true]
        omega
      have hrest : gridList (ceilDiv (H - (upper + hOff)) hOff) (ceilDiv W wOff)
            (fun r c => ((⟨c * wOff, upper + hOff + r * hOff,
              min (c * wOff + w) W, min (upper + hOff + r * hOff + h) H⟩ : Box),
              row + 1 + r, c)) =
          gridList (ceilDiv (H - (upper + hOff)) hOff) (ceilDiv W wOff)
            (fun r => (fun r c => ((⟨c * wOff, upper + r * hOff,
              min (c * wOff + w) W, min (upper + r * hOff + h) H⟩ : Box),
              row + r, c)) (r + 1)) := by
        refine gridList_congr _ _ _ _ fun r c _ _ => ?_
        have hsm : (r + 1) * hOff = r * hOff + hOff := by ring
        simp only [Prod.mk.injEq, Box.mk.injEq, true_and, and_true]
        omega
      rw [hrow, hrest]
    · have h0 : H - upper = 0 := by omega
      rw [h0, ceilDiv_zero_left _ hhOff, gridList_zero]
      simp [get_boxes_outer_succ, hlt]

/-- On every configuration the reference validation accepts
(`w ≤ W`, `h ≤ W` — the source compares the box height against the image
WIDTH — `ow < w`, `oh < h`), `get_boxes` succeeds and produces exactly the
row-major `ceilDiv H (h - oh) × ceilDiv W (w - ow)` grid of `tileAt` tiles. -/
theorem get_boxes_ok (W H w h ow oh : Nat)
    (hwW : w ≤ W) (hhW : h ≤ W) (how : ow < w) (hoh : oh < h) :
    get_boxes (W, H) (w, h) (ow, oh) false =
      .ok (gridList (ceilDiv H (h - oh)) (ceilDiv W (w - ow))
        (tileAt W H w h ow oh)) := by
  have hwOff : 0 < w - ow := by omega
  have hhOff : 0 < h - oh := by omega
  have hw : 0 < w := by omega
  have hh : 0 < h := by omega
  have hW : 0 < W := by omega
  have houter := get_boxes_outer_spec W H (w - ow) (h - oh) w h hwOff hhOff hw hh hW
    H 0 h 0 (by have := Nat.le_mul_of_pos_right H hhOff; omega) (by simp)
  have hgrid : gridList (ceilDiv (H - 0) (h - oh)) (ceilDiv W (w - ow))
        (fun r c => ((⟨c * (w - ow), 0 + r * (h - oh),
          min (c * (w - ow) + w) W, min (0 + r * (h - oh) + h) H⟩ : Box), 0 + r, c)) =
      gridList (ceilDiv H (h - oh)) (ceilDiv W (w - ow)) (tileAt W H w h ow oh) := by
    rw [Nat.sub_zero]
    refine gridList_congr _ _ _ _ fun r c _ _ => ?_
    simp [tileAt]
  unfold get_boxes validate_box_size_against_image_size
    validate_overlap_size_against_box_size
  rw [if_neg (by simp : ¬ (false : Bool) = true)]
  rw [if_neg (by omega : ¬ (w, h).1 > (W, H).1), if_neg (by omega : ¬ (w, h).2 > (W, H).1),
    if_neg (by omega : ¬ (ow, oh).1 ≥ (w, h).1), if_neg (by omega : ¬ (ow, oh).2 ≥ (w, h).2)]
  dsimp only
  rw [houter]
  exact congrArg Except.ok hgrid

/-- One-step unfolding of `spec_inner` at positive fuel. -/
theorem spec_inner_succ (W H wOff upper lowerNom row fuel left rightNom col : Nat) :
    spec_inner W H wOff upper lowerNom row (fuel + 1) left rightNom col =
      if left < W then
        (⟨left, upper, if rightNom > W then W else rightNom,
          if lowerNom > H then H else lowerNom⟩, row, col)
          :: spec_inner W H wOff upper lowerNom row fuel
              (left + wOff) (rightNom + wOff) (col + 1)
      else [] := rfl

/-- Closed form of the spec's two-state inner loop: the nominal right edge
is exactly `left + w` at every step. -/
theorem spec_inner_spec (W H wOff w upper lowerNom row : Nat) (hwOff : 0 < wOff) :
    ∀ fuel left rightNom col,
      rightNom = left + w →
      W ≤ left + fuel * wOff →
      spec_inner W H wOff upper lowerNom row fuel left rightNom col =
        (List.range (ceilDiv (W - left) wOff)).map
          (fun k => (⟨left + k * wOff, upper,
            min (left + k * wOff + w) W, min lowerNom H⟩, row, col + k)) := by
  intro fuel
  induction fuel with
  | zero =>
    intro left rightNom col hr hfuel
    have hle : W ≤ left := by simpa using hfuel
    have h0 : W - left = 0 := by omega
    rw [h0, ceilDiv_zero_left _ hwOff]
    simp [spec_inner, Nat.not_lt.mpr hle]
  | succ fuel ih =>
    intro left rightNom col hr hfuel
    by_cases hlt : left < W
    · have hfuel' : W ≤ (left + wOff) + fuel * wOff := by
        have hsm : (fuel + 1) * wOff = fuel * wOff + wOff := by ring
        omega
      rw [spec_inner_succ, trim_eq_min, trim_eq_min, if_pos hlt,
        ih (left + wOff) (rightNom + wOff) (col + 1) (by omega) hfuel']
      have hstep : ceilDiv (W - left) wOff = ceilDiv (W - (left + wOff)) wOff + 1 := by
        have e : W - left - wOff = W - (left + wOff) := by omega
        have := ceilDiv_step (W - left) wOff hwOff (by omega)
        rw [e] at this
        exact this
      rw [hstep, List.range_succ_eq_map, List.map_cons, List.map_map]
      have hhead : ((⟨left, upper, min rightNom W, min lowerNom H⟩ : Box), row, col) =
          ((fun k => ((⟨left + k * wOff, upper,
            min (left + k * wOff + w) W, min lowerNom H⟩ : Box), row, col + k)) 0) := by
        simp only [Prod.mk.injEq, Box.mk.injEq, true_and, and_true]
        omega
      have htail : List.map (fun k => ((⟨left + wOff + k * wOff, upper,
            min (left + wOff + k * wOff + w) W, min lowerNom H⟩ : Box),
            row, col + 1 + k)) (List.range (ceilDiv (W - (left + wOff)) wOff)) =
          List.map ((fun k => ((⟨left + k * wOff, upper,
            min (left + k * wOff + w) W, min lowerNom H⟩ : Box), row, col + k)) ∘ Nat.succ)
            (List.range (ceilDiv (W - (left + wOff)) wOff)) := by
        refine List.map_congr_left fun k _ => ?_
        have hsm : (k + 1) * wOff = k * wOff + wOff := by ring
        simp only [Function.comp_apply, Prod.mk.injEq, Box.mk.injEq,
          Nat.succ_eq_add_one, true_and, and_true]
        omega
      rw [hhead, htail]
    · have h0 : W - left = 0 := by omega
      rw [h0, ceilDiv_zero_left _ hwOff]
      simp [spec_inner_succ, hlt]

/-- One-step unfolding of `spec_outer` at positive fuel. -/
theorem spec_outer_succ (W H wOff hOff bw fuel upper lowerNom row : Nat) :
    spec_outer W H wOff hOff bw (fuel + 1) upper lowerNom row =
      if upper < H then
        spec_inner W H wOff upper lowerNom row W 0 bw 0
          ++ spec_outer W H wOff hOff bw fuel
              (upper + hOff) (lowerNom + hOff) (row + 1)
      else [] := rfl

/-- Closed form of the spec's two-state outer loop: the nominal lower edge
is exactly `upper + h` at every row. -/
theorem spec_outer_spec (W H wOff hOff w h : Nat)
    (hwOff : 0 < wOff) (hhOff : 0 < hOff) :
    ∀ fuel upper lowerNom row,
      lowerNom = upper + h →
      H ≤ upper + fuel * hOff →
      spec_outer W H wOff hOff w fuel upper lowerNom row =
        gridList (ceilDiv (H - upper) hOff) (ceilDiv W wOff)
          (fun r c => (⟨c * wOff, upper + r * hOff,
            min (c * wOff + w) W, min (upper + r * hOff + h) H⟩, row + r, c)) := by
  intro fuel
  induction fuel with
  | zero =>
    intro upper lowerNom row hl hfuel
    have hle : H ≤ upper := by simpa using hfuel
    have h0 : H - upper = 0 := by omega
    rw [h0, ceilDiv_zero_left _ hhOff, gridList_zero]
    simp [spec_outer, Nat.not_lt.mpr hle]
  | succ fuel ih =>
    intro upper lowerNom row hl hfuel
    by_cases hlt : upper < H
    · have hinner := spec_inner_spec W H wOff w upper lowerNom row hwOff W 0 w 0
        (by omega) (by have := Nat.le_mul_of_pos_right W hwOff; omega)
      have hfuel' : H ≤ (upper + hOff) + fuel * hOff := by
        have hsm : (fuel + 1) * hOff = fuel * hOff + hOff := by ring
        omega
      rw [spec_outer_succ, if_pos hlt, hinner,
        ih (upper + hOff) (lowerNom + hOff) (row + 1) (by omega) hfuel']
      have hstep : ceilDiv (H - upper) hOff = ceilDiv (H - (upper + hOff)) hOff + 1 := by
        have e : H - upper - hOff = H - (upper + hOff) := by omega
        have := ceilDiv_step (H - upper) hOff hhOff (by omega)
        rw [e] at this
        exact this
      rw [hstep, gridList_succ]
      have hrow : List.map (fun k => ((⟨0 + k * wOff, upper,
            min (0 + k * wOff + w) W, min lowerNom H⟩ : Box), row, 0 + k))
            (List.range (ceilDiv (W - 0) wOff)) =
          List.map ((fun r c => ((⟨c * wOff, upper + r * hOff,
            min (c * wOff + w) W, min (upper + r * hOff + h) H⟩ : Box), row + r, c)) 0)
            (List.range (ceilDiv W wOff)) := by
        rw [Nat.sub_zero]
        refine List.map_congr_left fun k _ => ?_
        simp only [Prod.mk.injEq, Box.mk.injEq, true_and, and_true]
        omega
      have hrest : gridList (ceilDiv (H - (upper + hOff)) hOff) (ceilDiv W wOff)
            (fun r c => ((⟨c * wOff, upper + hOff + r * hOff,
              min (c * wOff + w) W, min (upper + hOff + r * hOff + h) H⟩ : Box),
              row + 1 + r, c)) =
          gridList (ceilDiv (H - (upper + hOff)) hOff) (ceilDiv W wOff)
            (fun r => (fun r c => ((⟨c * wOff, upper + r * hOff,
              min (c * wOff + w) W, min (upper + r * hOff + h) H⟩ : Box),
              row + r, c)) (r + 1)) := by
        refine gridList_congr _ _ _ _ fun r c _ _ => ?_
        have hsm : (r + 1) * hOff = r * hOff + hOff := by ring
        simp only [Prod.mk.injEq, Box.mk.injEq, true_and, and_true]
        omega
      rw [hrow, hrest]
    · have h0 : H - upper = 0 := by omega
      rw [h0, ceilDiv_zero_left _ hhOff, gridList_zero]
      simp [spec_outer_succ, hlt]

/-- For every configuration with positive offsets, the spec's two-state
algorithm produces exactly the row-major grid of `tileAt` tiles. -/
theorem generate_boxes_spec_ok (W H w h ow oh : Nat) (how : ow < w) (hoh : oh < h) :
    generate_boxes_spec (W, H) (w, h) (ow, oh) =
      gridList (ceilDiv H (h - oh)) (ceilDiv W (w - ow)) (tileAt W H w h ow oh) := by
  have hwOff : 0 < w - ow := by omega
  have hhOff : 0 < h - oh := by omega
  have houter := spec_outer_spec W H (w - ow) (h - oh) w h hwOff hhOff
    H 0 h 0 (by omega) (by have := Nat.le_mul_of_pos_right H hhOff; omega)
  unfold generate_boxes_spec
  dsimp only at houter ⊢
  rw [houter]
  rw [Nat.sub_zero]
  refine gridList_congr _ _ _ _ fun r c _ _ => ?_
  simp [tileAt]

/-- A relation holds along consecutive entries of a row-major `gridList`
when it holds between horizontal neighbours within a row and between any
entry of one row and any entry of the next row. -/
theorem chain'_gridList (R : α → α → Prop) (rows cols : Nat) (f : Nat → Nat → α)
    (hrow : ∀ r c, R (f r c) (f r (c + 1)))
    (hbreak : ∀ r c c', R (f r c) (f (r + 1) c')) :
    List.Chain' R (gridList rows cols f) := by
  induction rows generalizing f with
  | zero => exact List.chain'_nil
  | succ n ih =>
    rw [gridList_succ]
    refine List.chain'_append.mpr
      ⟨?_, ih _ (fun r c => hrow (r + 1) c) (fun r c c' => hbreak (r + 1) c c'), ?_⟩
    · rw [List.chain'_map]
      cases cols with
      | zero => exact List.chain'_nil
      | succ m => exact (List.chain'_range_succ _ m).mpr (fun k _ => hrow 0 k)
    · intro x hx y hy
      cases cols with
      | zero => simp at hx
      | succ m =>
        rw [List.range_succ, List.map_append, List.getLast?_append] at hx
        simp at hx
        cases n with
        | zero => simp [gridList_zero] at hy
        | succ n' =>
          rw [gridList_succ, List.range_succ_eq_map] at hy
          simp at hy
          rw [← hx, ← hy]
          exact hbreak 0 m 0

/-- C1: the claim asserts exact coverage of `(0,0,W,H)` for every `w ≤ W`,
`h ≤ H`, `ow < w`, `oh < h`.  The code's validation instead compares the
tile height against the image WIDTH (its own error message says "Image
height must exceed box height", so this is a slip): at image `(1, 2)`,
tile `(1, 2)`, overlap `(0, 0)` — which satisfies all of the claim's
hypotheses — `get_boxes` raises `ValueError` and emits no box at all, so
pixel `(0, 0)` is left uncovered. -/
theorem coverage_claim_failing_input :
    get_boxes (1, 2) (1, 2) (0, 0) false =
      .error (.valueError "Image height must exceed box height") := rfl

/-- C2: the claim asserts `get_boxes` rejects every configuration with
tile height exceeding image height.  The code compares the tile height
against the image WIDTH instead: at image `(10, 2)`, tile `(2, 3)`
(height 3 > image height 2, but 3 ≤ image width 10), overlap `(0, 0)`,
validation passes and five boxes are produced, each with its lower edge
trimmed from 3 to 2. -/
theorem height_validation_failing_input :
    get_boxes (10, 2) (2, 3) (0, 0) false =
      .ok [((⟨0, 0, 2, 2⟩ : Box), 0, 0), ((⟨2, 0, 4, 2⟩ : Box), 0, 1),
           ((⟨4, 0, 6, 2⟩ : Box), 0, 2), ((⟨6, 0, 8, 2⟩ : Box), 0, 3),
           ((⟨8, 0, 10, 2⟩ : Box), 0, 4)] := rfl

/-- C3: given `w ≤ W` and a valid overlap, `get_boxes` fails with a
`ValueError` exactly when the tile height exceeds the image WIDTH — the
reference validation's (defective) comparison. -/
theorem error_iff_tile_height_gt_image_width (W H w h ow oh : Nat)
    (hwW : w ≤ W) (how : ow < w) (hoh : oh < h) :
    (∃ msg, get_boxes (W, H) (w, h) (ow, oh) false = .error (.valueError msg)) ↔
      W < h := by
  constructor
  · rintro ⟨msg, hmsg⟩
    by_contra hWh
    rw [get_boxes_ok W H w h ow oh hwW (by omega) how hoh] at hmsg
    exact absurd hmsg (by simp)
  · intro hWh
    refine ⟨"Image height must exceed box height", ?_⟩
    unfold get_boxes validate_box_size_against_image_size
    rw [if_neg (by simp : ¬ (false : Bool) = true)]
    rw [if_neg (by dsimp only; omega : ¬ (w, h).1 > (W, H).1),
      if_pos (by dsimp only; omega : (w, h).2 > (W, H).1)]

/-- Witness for C3 at image `(5, 100)`, tile `(5, 6)`, overlap `(0, 0)`:
the tile height 6 exceeds the image width 5 (though not the image height),
and `get_boxes` raises `ValueError`. -/
theorem error_iff_tile_height_gt_image_width_witness :
    ∃ msg, get_boxes (5, 100) (5, 6) (0, 0) false = .error (.valueError msg) :=
  (error_iff_tile_height_gt_image_width 5 100 5 6 0 0 (by decide) (by decide)
    (by decide)).mpr (by decide)

/-- C4: on every configuration the reference validation accepts, every
emitted box satisfies `left < right ≤ W` and `upper < lower ≤ H`
(`0 ≤ left` and `0 ≤ upper` hold by the `Nat` embedding). -/
theorem emitted_boxes_within_image (W H w h ow oh : Nat)
    (hwW : w ≤ W) (hhW : h ≤ W) (how : ow < w) (hoh : oh < h) :
    ∃ L, get_boxes (W, H) (w, h) (ow, oh) false = .ok L ∧
      ∀ t ∈ L, t.1.left < t.1.right ∧ t.1.right ≤ W ∧
        t.1.upper < t.1.lower ∧ t.1.lower ≤ H := by
  refine ⟨_, get_boxes_ok W H w h ow oh hwW hhW how hoh, ?_⟩
  intro t ht
  rw [mem_gridList] at ht
  obtain ⟨r, c, hr, hc, rfl⟩ := ht
  have hcW : c * (w - ow) < W := (lt_ceilDiv_iff c W (w - ow) (by omega)).mp hc
  have hrH : r * (h - oh) < H := (lt_ceilDiv_iff r H (h - oh) (by omega)).mp hr
  unfold tileAt
  dsimp only
  exact ⟨by omega, by omega, by omega, by omega⟩

/-- Witness for C4 at image `(500, 300)`, tile `(256, 256)`, overlap
`(0, 0)`. -/
theorem emitted_boxes_within_image_witness :
    ∃ L, get_boxes (500, 300) (256, 256) (0, 0) false = .ok L ∧
      ∀ t ∈ L, t.1.left < t.1.right ∧ t.1.right ≤ 500 ∧
        t.1.upper < t.1.lower ∧ t.1.lower ≤ 300 :=
  emitted_boxes_within_image 500 300 256 256 0 0 (by decide) (by decide)
    (by decide) (by decide)

/-- C5: on every configuration the reference validation accepts, the
emitted sequence has exactly
`ceilDiv W (w - ow) * ceilDiv H (h - oh)` entries and its `(row, col)`
pairs are exactly the row-major enumeration of the complete
`rows × cols` grid (hence no duplicates and correct resets). -/
theorem emitted_grid_length_and_order (W H w h ow oh : Nat)
    (hwW : w ≤ W) (hhW : h ≤ W) (how : ow < w) (hoh : oh < h) :
    ∃ L, get_boxes (W, H) (w, h) (ow, oh) false = .ok L ∧
      L.length = ceilDiv W (w - ow) * ceilDiv H (h - oh) ∧
      L.map (fun t => (t.2.1, t.2.2)) =
        gridList (ceilDiv H (h - oh)) (ceilDiv W (w - ow)) (fun r c => (r, c)) := by
  refine ⟨_, get_boxes_ok W H w h ow oh hwW hhW how hoh, ?_, ?_⟩
  · rw [gridList_length]
    exact Nat.mul_comm _ _
  · rw [gridList_map]
    rfl

/-- Witness for C5 at image `(500, 300)`, tile `(256, 256)`, overlap
`(0, 0)`: 2 × 2 = 4 tiles, grid `[(0,0), (0,1), (1,0), (1,1)]`. -/
theorem emitted_grid_length_and_order_witness :
    ∃ L, get_boxes (500, 300) (256, 256) (0, 0) false = .ok L ∧
      L.length = ceilDiv 500 (256 - 0) * ceilDiv 300 (256 - 0) ∧
      L.map (fun t => (t.2.1, t.2.2)) =
        gridList (ceilDiv 300 (256 - 0)) (ceilDiv 500 (256 - 0)) (fun r c => (r, c)) :=
  emitted_grid_length_and_order 500 300 256 256 0 0 (by decide) (by decide)
    (by decide) (by decide)

/-- C6: on every configuration the reference validation accepts, the
generator's destructive trimming (trim `right`/`lower` in place, then keep
advancing the trimmed values) produces exactly the sequence of the spec's
two-state algorithm, which advances nominal untrimmed edges and trims only
the emitted copy. -/
theorem destructive_trim_refines_nominal (W H w h ow oh : Nat)
    (hwW : w ≤ W) (hhW : h ≤ W) (how : ow < w) (hoh : oh < h) :
    get_boxes (W, H) (w, h) (ow, oh) false =
      .ok (generate_boxes_spec (W, H) (w, h) (ow, oh)) := by
  rw [get_boxes_ok W H w h ow oh hwW hhW how hoh,
    generate_boxes_spec_ok W H w h ow oh how hoh]

/-- Witness for C6 at image `(10, 10)`, tile `(8, 8)`, overlap `(6, 6)`:
heavy trimming in both directions, identical 25-tile sequences. -/
theorem destructive_trim_refines_nominal_witness :
    get_boxes (10, 10) (8, 8) (6, 6) false =
      .ok (generate_boxes_spec (10, 10) (8, 8) (6, 6)) :=
  destructive_trim_refines_nominal 10 10 8 8 6 6 (by decide) (by decide)
    (by decide) (by decide)

/-- C7: whenever the overlap is not strictly smaller than the tile in
either dimension, `get_boxes` (called without overhang) fails with a
`ValueError`; in the `Except` model no box is produced before the
failure. -/
theorem invalid_overlap_rejected (W H w h ow oh : Nat)
    (hbad : w ≤ ow ∨ h ≤ oh) :
    ∃ msg, get_boxes (W, H) (w, h) (ow, oh) false = .error (.valueError msg) := by
  unfold get_boxes validate_box_size_against_image_size
    validate_overlap_size_against_box_size
  rw [if_neg (by simp : ¬ (false : Bool) = true)]
  dsimp only
  by_cases h1 : w > W
  · rw [if_pos h1]
    exact ⟨_, rfl⟩
  · rw [if_neg h1]
    by_cases h2 : h > W
    · rw [if_pos h2]
      exact ⟨_, rfl⟩
    · rw [if_neg h2]
      by_cases h3 : ow ≥ w
      · rw [if_pos h3]
        exact ⟨_, rfl⟩
      · rw [if_neg h3, if_pos (by omega : oh ≥ h)]
        exact ⟨_, rfl⟩

/-- Witness for C7 at image `(256, 256)`, tile `(128, 128)`, overlap
`(128, 0)` — the spec's §8 scenario: overlap width 128 ≥ tile width 128. -/
theorem invalid_overlap_rejected_witness :
    ∃ msg, get_boxes (256, 256) (128, 128) (128, 0) false =
      .error (.valueError msg) :=
  invalid_overlap_rejected 256 256 128 128 128 0 (by decide)

/-- C8: for every image size, tile size and overlap, requesting overhang
makes `get_boxes` fail with `NotImplementedError` before producing
anything. -/
theorem overhang_not_implemented (imgSize boxSize overlap : Nat × Nat) :
    get_boxes imgSize boxSize overlap true = .error .notImplemented := rfl

/-- C9: on every configuration the reference validation accepts, for each
pair of consecutive emitted tiles in the same row whose earlier box is not
trimmed (`right = left + w`), the later box starts exactly `ow` pixels
before the earlier one ends: `next.left = current.right - ow`.  With
overlap `(0, 0)` this is `next.left = current.right`. -/
theorem row_adjacent_overlap (W H w h ow oh : Nat)
    (hwW : w ≤ W) (hhW : h ≤ W) (how : ow < w) (hoh : oh < h) :
    ∃ L, get_boxes (W, H) (w, h) (ow, oh) false = .ok L ∧
      List.Chain' (fun t₁ t₂ => t₁.2.1 = t₂.2.1 →
        t₁.1.right = t₁.1.left + w → t₂.1.left = t₁.1.right - ow) L := by
  refine ⟨_, get_boxes_ok W H w h ow oh hwW hhW how hoh, ?_⟩
  refine chain'_gridList _ _ _ _ (fun r c => ?_) (fun r c c' => ?_)
  · intro _ huntrimmed
    unfold tileAt at huntrimmed ⊢
    dsimp only at huntrimmed ⊢
    have hsm : (c + 1) * (w - ow) = c * (w - ow) + (w - ow) := by ring
    omega
  · intro hrow _
    unfold tileAt at hrow
    dsimp only at hrow
    omega

/-- Witness for C9 at image `(500, 300)`, tile `(256, 256)`, overlap
`(0, 0)`. -/
theorem row_adjacent_overlap_witness :
    ∃ L, get_boxes (500, 300) (256, 256) (0, 0) false = .ok L ∧
      List.Chain' (fun t₁ t₂ => t₁.2.1 = t₂.2.1 →
        t₁.1.right = t₁.1.left + 256 → t₂.1.left = t₁.1.right - 0) L :=
  row_adjacent_overlap 500 300 256 256 0 0 (by decide) (by decide)
    (by decide) (by decide)

/-- C10: for every image with `W ≥ 1` and `H ≥ 1` that passes the
reference validation — including configurations where the tile height
exceeds the image height, which the validation accepts whenever the tile
height is at most the image width — the generator succeeds (so in
particular the four in-loop `assert` statements, modelled as the
`assertionFailed` error, never fire) and every emitted tile satisfies the
asserted conditions. -/
theorem loop_assertions_never_fail (W H w h ow oh : Nat)
    (_hW : 1 ≤ W) (_hH : 1 ≤ H) (hwW : w ≤ W) (hhW : h ≤ W)
    (how : ow < w) (hoh : oh < h) :
    ∃ L, get_boxes (W, H) (w, h) (ow, oh) false = .ok L ∧
      ∀ t ∈ L, 0 ≤ t.1.left ∧ 0 ≤ t.1.upper ∧
        t.1.left < t.1.right ∧ t.1.upper < t.1.lower := by
  refine ⟨_, get_boxes_ok W H w h ow oh hwW hhW how hoh, ?_⟩
  intro t ht
  rw [mem_gridList] at ht
  obtain ⟨r, c, hr, hc, rfl⟩ := ht
  have hcW : c * (w - ow) < W := (lt_ceilDiv_iff c W (w - ow) (by omega)).mp hc
  have hrH : r * (h - oh) < H := (lt_ceilDiv_iff r H (h - oh) (by omega)).mp hr
  unfold tileAt
  dsimp only
  exact ⟨Nat.zero_le _, Nat.zero_le _, by omega, by omega⟩

/-- Witness for C10 at image `(10, 2)`, tile `(2, 3)`, overlap `(0, 0)`:
the tile height 3 exceeds the image height 2 yet passes validation, and
trimming alone keeps `upper < lower` in every emitted tile. -/
theorem loop_assertions_never_fail_witness :
    ∃ L, get_boxes (10, 2) (2, 3) (0, 0) false = .ok L ∧
      ∀ t ∈ L, 0 ≤ t.1.left ∧ 0 ≤ t.1.upper ∧
        t.1.left < t.1.right ∧ t.1.upper < t.1.lower :=
  loop_assertions_never_fail 10 2 2 3 0 0 (by decide) (by decide) (by decide)
    (by decide) (by decide) (by decide)
